import Mathlib

/-
Verification of the divide-and-conquer envelope algorithm of
Envelope_2/include/CGAL/Envelope_2/Env_divide_and_conquer_2.h.

The visible source is the class header: it carries the full bodies of the
constructors, destructor, get_traits, insert_curves, insert_x_monotone_curves
and the Vertical_strict_weak_ordering functor, while the bodies of the
protected helpers (_construct_envelope_non_vertical, _merge_envelopes,
_compare_vertices, _merge_single_interval, _merge_two_intervals,
_append_vertex, _merge_vertical_segments) live in
Env_divide_and_conquer_2_impl.h, which is not part of the visible source.
Definitions for those helpers are therefore modelled from the specification
(their in-header documentation plus the design document) and are marked as
such in their doc comments.

Geometry is made concrete: points carry integer coordinates, x-monotone
curves are identified by a numeric id and their two endpoints, and the traits
operations that the absent bodies consume (compare-at-x over an interval,
crossing computation, vertical clipping) are abstracted as oracle parameters.
-/

set_option linter.unusedVariables false

namespace CGAL

/-- CGAL Comparison_result, the three-way comparison outcome used throughout
the envelope code. -/
inductive Comparison_result where
  | SMALLER
  | EQUAL
  | LARGER
deriving DecidableEq, Repr

/-- The Envelope_type enumeration of Envelope_divide_and_conquer_2
(source lines 46-50). -/
inductive Envelope_type where
  | LOWER
  | UPPER
deriving DecidableEq, Repr

/-- A concrete planar point standing for Traits_2::Point_2; coordinates are
integers so that the traits comparisons become genuine comparisons. -/
structure Point where
  x : Int
  y : Int
deriving DecidableEq, Repr

/-- A concrete x-monotone curve standing for Traits_2::X_monotone_curve_2:
a numeric identity cid (so that edge curve sets are sets of ids) together
with its left endpoint (lx, ly) and right endpoint (rx, ry). -/
structure XCurve where
  cid : Nat
  lx : Int
  ly : Int
  rx : Int
  ry : Int
deriving DecidableEq, Repr

/-- The set of curves attached to a diagram edge, by curve id. -/
abbrev CurveSet := Finset Nat

/-- An envelope diagram: the alternating sequence
edge, vertex, edge, ..., vertex, edge is stored as the list pre of
(edge curve set, right vertex of that edge) pairs, left to right, followed
by the unbounded rightmost edge last. An empty pre means the diagram is the
single unbounded edge last. -/
structure Diagram where
  pre : List (CurveSet × Point)
  last : CurveSet
deriving DecidableEq

/-- The vertices of a diagram, left to right. -/
def Diagram.verts (d : Diagram) : List Point := d.pre.map (fun e => e.2)

/-- The empty diagram: a single unbounded edge with an empty curve set and
no vertices. -/
def emptyDiagram : Diagram := ⟨[], ∅⟩

/-- A CGAL::Object as produced by Make_x_monotone_2: it holds either an
x-monotone curve or an isolated point. -/
inductive TraitsObject where
  | xcurve (xcv : XCurve)
  | pt (p : Point)
deriving DecidableEq

/-- CGAL::assign targeted at X_monotone_curve_2: succeeds exactly when the
object holds an x-monotone curve (source line 130). -/
def assignXCurve : TraitsObject → Option XCurve
  | TraitsObject.xcurve xcv => some xcv
  | TraitsObject.pt _ => none

/-- An input curve (Traits_2::Curve_2) is opaque to the algorithm: only the
make-x-monotone traits operation inspects it, so a numeric id suffices. -/
abbrev Curve := Nat

/-- Embedding of the partition loop of insert_x_monotone_curves
(source lines 163-173): one pass over the range, pushing each curve at the
back of vert_list when the traits Is_vertical_2 predicate holds and at the
back of reg_list otherwise. Returns (reg_list, vert_list). -/
def partitionCurves (is_vertical : XCurve → Bool) (curves : List XCurve) :
    List XCurve × List XCurve :=
  curves.foldl (fun acc c =>
    if is_vertical c then (acc.1, acc.2 ++ [c]) else (acc.1 ++ [c], acc.2))
    ([], [])

/-- Embedding of insert_x_monotone_curves (source lines 150-185): record the
envelope type, separate the vertical curves from the regular ones, construct
the envelope of the regular curves via _construct_envelope_non_vertical, and
merge the vertical segments afterwards only when vert_list is non-empty.
The two protected helpers are taken as function parameters because their
bodies live in the absent implementation file; the envelope type, stored by
the C++ code in the env_type member, is passed to them explicitly. -/
def insert_x_monotone_curves (is_vertical : XCurve → Bool)
    (constructNV : Envelope_type → List XCurve → Diagram)
    (mergeVert : Envelope_type → List XCurve → Diagram → Diagram)
    (curves : List XCurve) (type : Envelope_type) : Diagram :=
  let lists := partitionCurves is_vertical curves
  let d := constructNV type lists.1
  if lists.2.length > 0 then mergeVert type lists.2 d else d

/-- Embedding of insert_curves (source lines 109-140): for each input curve
in order, invoke the traits make-x-monotone operation, keep exactly the
returned objects to which an X_monotone_curve_2 assigns (isolated points are
dropped), accumulate them in x_curves, and hand the collection to
insert_x_monotone_curves with the same envelope type and output diagram.
The loop variable spelled obj_itr at its single use on source line 130 is
read as the declared iterator obj_it of the same loop. -/
def insert_curves (make_x_monotone : Curve → List TraitsObject)
    (is_vertical : XCurve → Bool)
    (constructNV : Envelope_type → List XCurve → Diagram)
    (mergeVert : Envelope_type → List XCurve → Diagram → Diagram)
    (curves : List Curve) (type : Envelope_type) : Diagram :=
  let x_curves : List XCurve :=
    curves.foldl (fun xcs c =>
      (make_x_monotone c).foldl (fun xcs2 obj =>
        match assignXCurve obj with
        | some xcv => xcs2 ++ [xcv]
        | none => xcs2) xcs) []
  insert_x_monotone_curves is_vertical constructNV mergeVert x_curves type

/-- Embedding of the committed body of
Vertical_strict_weak_ordering::operator() (source lines 304-311): the
intended x-comparison is commented out (marked RWRW!) and the body returns
true unconditionally, ignoring both arguments. -/
def Vertical_strict_weak_ordering (mcv1 mcv2 : XCurve) : Bool := true

/-- Modelled from the spec: the body of _compare_vertices lives in the absent
Env_divide_and_conquer_2_impl.h; this follows its in-header documentation
(source lines 230-245) and the tie-break rule of the design: SMALLER when
x(v1) < x(v2), or at equal x when the envelope is LOWER and y(v1) < y(v2) or
the envelope is UPPER and y(v1) > y(v2); LARGER under the mirrored
conditions; EQUAL when v1 = v2; the second component is the same_x output
parameter, true exactly when x(v1) = x(v2). -/
def _compare_vertices (type : Envelope_type) (v1 v2 : Point) :
    Comparison_result × Bool :=
  if v1.x < v2.x then (Comparison_result.SMALLER, false)
  else if v2.x < v1.x then (Comparison_result.LARGER, false)
  else if v1.y = v2.y then (Comparison_result.EQUAL, true)
  else
    match type with
    | Envelope_type.LOWER =>
        (if v1.y < v2.y then Comparison_result.SMALLER
         else Comparison_result.LARGER, true)
    | Envelope_type.UPPER =>
        (if v2.y < v1.y then Comparison_result.SMALLER
         else Comparison_result.LARGER, true)

/-- Modelled from the spec: the curve-set resolution of the two-interval case
of _merge_two_intervals (body absent from the visible source). The winner's
curve set becomes the output edge's set; an EQUAL comparison means the two
sides are co-extremal over the sub-interval and yields the union of both
sets. The function is total: no comparison outcome is an error. -/
def _merge_two_intervals_set (res : Comparison_result) (s1 s2 : CurveSet) :
    CurveSet :=
  match res with
  | Comparison_result.SMALLER => s1
  | Comparison_result.LARGER => s2
  | Comparison_result.EQUAL => s1 ∪ s2

/-- Modelled from the spec: the traits operations consumed by the absent
merge bodies, abstracted as oracles. cmp is compare-at-x of two edge curve
sets over the sub-interval whose left bound is the given representative
(none for an interval unbounded to the left); cross returns the crossing
breakpoints reported by the traits intersection operation strictly inside an
interval, each paired with the winner set of the sub-interval that follows
it; contrib decides whether a vertical segment survives clipping against the
computed envelope; vy is the clipped y-value at which it is spliced. -/
structure MergeOracles where
  cmp : Envelope_type → CurveSet → CurveSet → Option Int → Comparison_result
  cross : CurveSet → CurveSet → Option Int → Option Int →
    List (CurveSet × Point)
  contrib : Envelope_type → XCurve → Bool
  vy : Envelope_type → XCurve → Int

/-- Modelled from the spec: classification of one sub-interval of the merge.
A side whose edge has an empty curve set cannot be extremal, so the other
side's set is copied verbatim (the single-interval case); when both sides
are non-empty the two-interval rule applies through compare-at-x. -/
def intervalSet (O : MergeOracles) (type : Envelope_type) (s1 s2 : CurveSet)
    (rep : Option Int) : CurveSet :=
  if s1 = ∅ then s2
  else if s2 = ∅ then s1
  else _merge_two_intervals_set (O.cmp type s1 s2 rep) s1 s2

/-- Modelled from the spec: the synchronized sweep of _merge_envelopes (body
absent from the visible source). The inputs are the pre lists of the two
diagrams together with their unbounded tail sets; lo is the x of the last
consumed event (none before the first). Events are the input vertices taken
in _compare_vertices order; two vertices at the same x are consumed together
and contribute the extremal one of the two, since the diagram keeps its
vertices strictly increasing in x. Each event is preceded by the crossing
vertices the traits report strictly inside the interval leading to it, and
each emitted pair carries the curve set of the interval to the left of its
vertex. -/
def sweep (O : MergeOracles) (type : Envelope_type) (last1 last2 : CurveSet) :
    List (CurveSet × Point) → List (CurveSet × Point) → Option Int →
      List (CurveSet × Point)
  | [], [], lo => O.cross last1 last2 lo none
  | [], (s2, v2) :: t2, lo =>
      O.cross last1 s2 lo (some v2.x) ++
        ((intervalSet O type last1 s2 lo, v2) ::
          sweep O type last1 last2 [] t2 (some v2.x))
  | (s1, v1) :: t1, [], lo =>
      O.cross s1 last2 lo (some v1.x) ++
        ((intervalSet O type s1 last2 lo, v1) ::
          sweep O type last1 last2 t1 [] (some v1.x))
  | (s1, v1) :: t1, (s2, v2) :: t2, lo =>
      let c := _compare_vertices type v1 v2
      if c.2 then
        O.cross s1 s2 lo (some v1.x) ++
          ((intervalSet O type s1 s2 lo,
            if c.1 = Comparison_result.LARGER then v2 else v1) ::
            sweep O type last1 last2 t1 t2 (some v1.x))
      else if c.1 = Comparison_result.SMALLER then
        O.cross s1 s2 lo (some v1.x) ++
          ((intervalSet O type s1 s2 lo, v1) ::
            sweep O type last1 last2 t1 ((s2, v2) :: t2) (some v1.x))
      else
        O.cross s1 s2 lo (some v2.x) ++
          ((intervalSet O type s1 s2 lo, v2) ::
            sweep O type last1 last2 ((s1, v1) :: t1) t2 (some v2.x))
termination_by l1 l2 lo => l1.length + l2.length

/-- Modelled from the spec: _merge_envelopes (declared on source lines
226-228, body absent): the merged diagram is the sweep of the two vertex
and edge sequences, with its unbounded tail resolved from the two input
tails by the same interval rule. -/
def _merge_envelopes (O : MergeOracles) (type : Envelope_type)
    (d1 d2 : Diagram) : Diagram :=
  ⟨sweep O type d1.last d2.last d1.pre d2.pre none,
   intervalSet O type d1.last d2.last none⟩

/-- Modelled from the spec: _construct_singleton_diagram (declared on source
lines 214-215, body absent): two unbounded empty edges flanking the curve's
own edge, with vertices at the curve's endpoints. -/
def _construct_singleton_diagram (cv : XCurve) : Diagram :=
  ⟨[(∅, ⟨cv.lx, cv.ly⟩), ({cv.cid}, ⟨cv.rx, cv.ry⟩)], ∅⟩

/-- Modelled from the spec: _construct_envelope_non_vertical (declared on
source lines 205-207, body absent): zero curves give the empty diagram, one
curve gives the singleton diagram, and otherwise the collection is split
positionally in half, both halves are built recursively and the results are
merged. -/
def _construct_envelope_non_vertical (O : MergeOracles)
    (type : Envelope_type) : List XCurve → Diagram
  | [] => emptyDiagram
  | [c] => _construct_singleton_diagram c
  | a :: b :: t =>
      _merge_envelopes O type
        (_construct_envelope_non_vertical O type
          ((a :: b :: t).take ((t.length + 2) / 2)))
        (_construct_envelope_non_vertical O type
          ((a :: b :: t).drop ((t.length + 2) / 2)))
termination_by l => l.length
decreasing_by
  all_goals simp [List.length_take]
  all_goals omega

/-- Modelled from the spec: splicing one vertical-segment vertex at x0 into
the vertex and edge sequence of a diagram. The edge covering x0 is located
along the sorted sequence and split at the new vertex, both halves keeping
its curve set; a vertex already present at x0 is reused, since the diagram
keeps its vertices strictly increasing in x. The zero-width edge record of
the design is not representable under that invariant and is abstracted
away. -/
def insertVertexAt (p : Point) (lastSet : CurveSet) :
    List (CurveSet × Point) → List (CurveSet × Point)
  | [] => [(lastSet, p)]
  | (s, v) :: t =>
      if p.x < v.x then (s, p) :: (s, v) :: t
      else if p.x = v.x then (s, v) :: t
      else (s, v) :: insertVertexAt p lastSet t

/-- Modelled from the spec: insertion of one vertical segment into a list
already sorted by x, the intended behavior of the vertical-segment ordering
(sort by x-coordinate of the segment). -/
def insertByX (c : XCurve) : List XCurve → List XCurve
  | [] => [c]
  | d :: t => if c.lx < d.lx then c :: d :: t else d :: insertByX c t

/-- Modelled from the spec: sorting the vertical segments by x-coordinate,
as the first step of the vertical-segment merge. -/
def sortByX (l : List XCurve) : List XCurve := l.foldr insertByX []

/-- Modelled from the spec: _merge_vertical_segments (declared on source
lines 321-322, body absent): sort the vertical segments by x, drop every
segment entirely dominated by the computed envelope (contrib false), and
splice each surviving segment as a vertex at its x-coordinate with the
clipped y-value. -/
def _merge_vertical_segments (O : MergeOracles) (type : Envelope_type)
    (vert_list : List XCurve) (d : Diagram) : Diagram :=
  (sortByX vert_list).foldl (fun acc c =>
    if O.contrib type c then
      ⟨insertVertexAt ⟨c.lx, O.vy type c⟩ acc.last acc.pre, acc.last⟩
    else acc) d

/-- Modelled from the spec: the traits Is_vertical_2 predicate on the
concrete curve model — a segment is vertical exactly when its two endpoints
share their x-coordinate. -/
def is_vertical_model (c : XCurve) : Bool := c.lx == c.rx

/-- The full insert_x_monotone_curves pipeline with the modelled helpers
plugged in for the absent implementation file. -/
def insert_x_monotone_curves_full (O : MergeOracles) (curves : List XCurve)
    (type : Envelope_type) : Diagram :=
  insert_x_monotone_curves is_vertical_model
    (_construct_envelope_non_vertical O) (_merge_vertical_segments O)
    curves type

/-- The full insert_curves pipeline with the modelled helpers plugged in for
the absent implementation file. -/
def insert_curves_full (O : MergeOracles)
    (make_x_monotone : Curve → List TraitsObject) (curves : List Curve)
    (type : Envelope_type) : Diagram :=
  insert_curves make_x_monotone is_vertical_model
    (_construct_envelope_non_vertical O) (_merge_vertical_segments O)
    curves type

/-- The x-coordinates of the vertices of a pre list, left to right. -/
def vxs (l : List (CurveSet × Point)) : List Int := l.map (fun e => e.2.x)

/-- The vertex x-coordinates of the list are strictly increasing. -/
def SortedVX (l : List (CurveSet × Point)) : Prop :=
  List.Pairwise (fun a b => a < b) (vxs l)

/-- x lies strictly to the right of the optional bound (none is minus
infinity). -/
def OLt : Option Int → Int → Prop
  | none, _ => True
  | some a, x => a < x

/-- Every vertex of the list lies strictly to the right of lo. -/
def AboveLo (lo : Option Int) (l : List (CurveSet × Point)) : Prop :=
  ∀ e ∈ l, OLt lo e.2.x

/-- Every vertex of the list lies strictly to the left of hi, when hi is a
finite bound. -/
def BelowHi (hi : Option Int) (l : List (CurveSet × Point)) : Prop :=
  ∀ e ∈ l, ∀ b, hi = some b → e.2.x < b

/-- Well-formedness of the crossing oracle, the §7 assumption of a
well-formed traits collaborator: the crossings reported for an interval are
strictly increasing in x and lie strictly inside the interval. -/
def CrossWF (O : MergeOracles) : Prop :=
  ∀ s1 s2 lo hi,
    SortedVX (O.cross s1 s2 lo hi) ∧ AboveLo lo (O.cross s1 s2 lo hi) ∧
      BelowHi hi (O.cross s1 s2 lo hi)

/-- Traits-ownership state of one algorithm instance: the data members
traits, own_traits and env_type of the class (source lines 62-65), with the
traits pointer modelled as a numeric id. -/
structure AlgState where
  traits : Nat
  own_traits : Bool
  env_type : Envelope_type
deriving DecidableEq

/-- The default constructor (source lines 76-81): allocates a fresh traits
object, owns it, and starts with env_type LOWER. -/
def mkDefault (fresh : Nat) : AlgState := ⟨fresh, true, Envelope_type.LOWER⟩

/-- The traits-pointer constructor (source lines 87-91): stores the caller's
pointer non-owningly and starts with env_type LOWER. -/
def mkWithTraits (p : Nat) : AlgState := ⟨p, false, Envelope_type.LOWER⟩

/-- The destructor effect (source lines 96-100): the stored traits pointer
is deleted exactly when own_traits holds; the returned value is the deleted
pointer, if any. -/
def destructorDeletes (a : AlgState) : Option Nat :=
  if a.own_traits then some a.traits else none

/-- get_traits (source lines 191-194): returns the stored pointer. -/
def get_traits (a : AlgState) : Nat := a.traits

/-- The public ways of obtaining an instance: the two public constructors.
The copy constructor and the assignment operator are declared private and
left unimplemented (source lines 67-69), so no public operation duplicates
an existing instance and they are absent here. -/
inductive PublicCtor where
  | mkDefault
  | withTraits (p : Nat)

/-- Runs one public constructor against an allocation counter: new Traits_2
yields the next fresh id and advances the counter. -/
def runCtor (n : Nat) : PublicCtor → AlgState × Nat
  | PublicCtor.mkDefault => (mkDefault n, n + 1)
  | PublicCtor.withTraits p => (mkWithTraits p, n)

/-- Runs a sequence of public constructions left to right, threading the
allocation counter, and returns the constructed instances. -/
def runCtors (n : Nat) : List PublicCtor → List AlgState
  | [] => []
  | op :: ops =>
      let r := runCtor n op
      r.1 :: runCtors r.2 ops

/-- A trivial but well-formed oracle assignment, used to instantiate the
merge model on concrete inputs: no crossings are ever reported, compare-at-x
always answers EQUAL, vertical segments always contribute at their left
endpoint's y. -/
def trivOracles : MergeOracles :=
  ⟨fun _ _ _ _ => Comparison_result.EQUAL, fun _ _ _ _ => [],
   fun _ _ => true, fun _ c => c.ly⟩

/-- A concrete make-x-monotone assignment producing one fixed non-vertical
x-monotone curve for every input curve. -/
def mkTriv : Curve → List TraitsObject :=
  fun _ => [TraitsObject.xcurve ⟨0, 0, 0, 5, 5⟩]

/-- A concrete vertical segment at x = 3 spanning y from 0 to 4, used as the
failing input of the vertical-ordering stub. -/
def vseg3 : XCurve := ⟨7, 3, 0, 3, 4⟩

/-- A concrete non-vertical x-monotone curve from (0, 0) to (5, 5). -/
def xc05 : XCurve := ⟨0, 0, 0, 5, 5⟩

theorem partitionCurves_foldl (is_vertical : XCurve → Bool) :
    ∀ (curves : List XCurve) (acc : List XCurve × List XCurve),
      curves.foldl (fun acc c =>
        if is_vertical c then (acc.1, acc.2 ++ [c])
        else (acc.1 ++ [c], acc.2)) acc =
      (acc.1 ++ curves.filter (fun c => !(is_vertical c)),
       acc.2 ++ curves.filter is_vertical) := by
  intro curves
  induction curves with
  | nil => intro acc; simp
  | cons c t ih =>
      intro acc
      by_cases h : is_vertical c = true
      · simp [List.filter_cons, h, ih]
      · simp only [Bool.not_eq_true] at h
        simp [List.filter_cons, h, ih]

theorem partitionCurves_eq (is_vertical : XCurve → Bool)
    (curves : List XCurve) :
    partitionCurves is_vertical curves =
      (curves.filter (fun c => !(is_vertical c)),
       curves.filter is_vertical) := by
  simpa [partitionCurves] using
    partitionCurves_foldl is_vertical curves ([], [])

theorem collect_inner_foldl (objs : List TraitsObject) :
    ∀ (acc : List XCurve),
      objs.foldl (fun xcs2 obj =>
        match assignXCurve obj with
        | some xcv => xcs2 ++ [xcv]
        | none => xcs2) acc = acc ++ objs.filterMap assignXCurve := by
  induction objs with
  | nil => intro acc; simp
  | cons o t ih =>
      intro acc
      rw [List.foldl_cons, ih]
      cases o with
      | xcurve xcv => simp [assignXCurve, List.filterMap_cons]
      | pt p => simp [assignXCurve, List.filterMap_cons]

theorem collect_outer_foldl (make_x_monotone : Curve → List TraitsObject) :
    ∀ (curves : List Curve) (acc : List XCurve),
      curves.foldl (fun xcs c =>
        (make_x_monotone c).foldl (fun xcs2 obj =>
          match assignXCurve obj with
          | some xcv => xcs2 ++ [xcv]
          | none => xcs2) xcs) acc =
      acc ++ curves.flatMap
        (fun c => (make_x_monotone c).filterMap assignXCurve) := by
  intro curves
  induction curves with
  | nil => intro acc; simp
  | cons c t ih =>
      intro acc
      rw [List.foldl_cons, ih, collect_inner_foldl, List.flatMap_cons,
        List.append_assoc]

/-- C1: the committed body of Vertical_strict_weak_ordering::operator()
returns true even when applied to one and the same vertical segment, whose
x-coordinate is not smaller than itself; the functor is therefore not
irreflexive, hence neither the claimed strict weak ordering by x nor
equivalent to the x-comparison. -/
theorem Vertical_strict_weak_ordering_stub_constant :
    Vertical_strict_weak_ordering vseg3 vseg3 = true ∧
      ¬ (vseg3.lx < vseg3.lx) :=
  ⟨rfl, by decide⟩

/-- C2: insert_curves applies the traits make-x-monotone operation to each
input curve in order, keeps exactly the returned objects that are x-monotone
curves (isolated points are dropped), and passes the collected curves to
insert_x_monotone_curves with the same envelope type and output diagram. -/
theorem insert_curves_forwards_x_monotone
    (make_x_monotone : Curve → List TraitsObject)
    (is_vertical : XCurve → Bool)
    (constructNV : Envelope_type → List XCurve → Diagram)
    (mergeVert : Envelope_type → List XCurve → Diagram → Diagram)
    (curves : List Curve) (type : Envelope_type) :
    insert_curves make_x_monotone is_vertical constructNV mergeVert
        curves type =
      insert_x_monotone_curves is_vertical constructNV mergeVert
        (curves.flatMap
          (fun c => (make_x_monotone c).filterMap assignXCurve)) type := by
  unfold insert_curves
  rw [collect_outer_foldl]
  rfl

/-- C4: in the two-interval merge case an EQUAL compare-at-x outcome yields
the union of the two edges' curve sets, and every comparison outcome yields
a curve set (one of the two sets or their union) — EQUAL is never an error
and never aborts the merge. -/
theorem merge_two_intervals_equal_yields_union (s1 s2 : CurveSet) :
    _merge_two_intervals_set Comparison_result.EQUAL s1 s2 = s1 ∪ s2 ∧
      ∀ res : Comparison_result,
        _merge_two_intervals_set res s1 s2 = s1 ∨
        _merge_two_intervals_set res s1 s2 = s2 ∨
        _merge_two_intervals_set res s1 s2 = s1 ∪ s2 := by
  refine ⟨rfl, ?_⟩
  intro res
  cases res <;> simp [_merge_two_intervals_set]

/-- C5: _compare_vertices returns SMALLER exactly when x(v1) < x(v2) or x
coincides and v1's y is extremal-first for the envelope type (smaller y for
LOWER, larger y for UPPER); LARGER under the mirrored conditions; EQUAL
exactly when v1 = v2; and its same_x output is true exactly when
x(v1) = x(v2). -/
theorem compare_vertices_characterization (type : Envelope_type)
    (v1 v2 : Point) :
    ((_compare_vertices type v1 v2).1 = Comparison_result.SMALLER ↔
      (v1.x < v2.x ∨ (v1.x = v2.x ∧
        ((type = Envelope_type.LOWER ∧ v1.y < v2.y) ∨
         (type = Envelope_type.UPPER ∧ v2.y < v1.y))))) ∧
    ((_compare_vertices type v1 v2).1 = Comparison_result.LARGER ↔
      (v2.x < v1.x ∨ (v1.x = v2.x ∧
        ((type = Envelope_type.LOWER ∧ v2.y < v1.y) ∨
         (type = Envelope_type.UPPER ∧ v1.y < v2.y))))) ∧
    ((_compare_vertices type v1 v2).1 = Comparison_result.EQUAL ↔
      v1 = v2) ∧
    ((_compare_vertices type v1 v2).2 = true ↔ v1.x = v2.x) := by
  obtain ⟨x1, y1⟩ := v1
  obtain ⟨x2, y2⟩ := v2
  cases type <;>
    · unfold _compare_vertices
      split_ifs <;> simp_all <;> omega

/-- C6: insert_x_monotone_curves partitions the input into the non-vertical
list (the curves failing the traits is-vertical predicate, in order) and the
vertical list (those satisfying it, in order), no curve lying in both; only
the non-vertical list reaches the divide-and-conquer construction, and the
vertical list is handled afterwards by the vertical-segment merger, which
runs only when that list is non-empty. -/
theorem insert_x_monotone_partitions_by_is_vertical
    (is_vertical : XCurve → Bool)
    (constructNV : Envelope_type → List XCurve → Diagram)
    (mergeVert : Envelope_type → List XCurve → Diagram → Diagram)
    (curves : List XCurve) (type : Envelope_type) :
    (partitionCurves is_vertical curves).1 =
        curves.filter (fun c => !(is_vertical c)) ∧
    (partitionCurves is_vertical curves).2 = curves.filter is_vertical ∧
    (∀ c, ¬(c ∈ (partitionCurves is_vertical curves).1 ∧
            c ∈ (partitionCurves is_vertical curves).2)) ∧
    insert_x_monotone_curves is_vertical constructNV mergeVert curves
        type =
      (if (curves.filter is_vertical).length > 0
       then mergeVert type (curves.filter is_vertical)
         (constructNV type (curves.filter (fun c => !(is_vertical c))))
       else constructNV type
         (curves.filter (fun c => !(is_vertical c)))) := by
  rw [insert_x_monotone_curves, partitionCurves_eq]
  refine ⟨rfl, rfl, ?_, rfl⟩
  intro c ⟨h1, h2⟩
  rw [List.mem_filter] at h1 h2
  rw [h2.2] at h1
  exact absurd h1.2 (by simp)

/-- C8: a default-constructed instance owns its internally allocated traits
object and its destructor deletes exactly that object; an instance built
from a caller-supplied traits pointer stores it non-owningly and its
destructor deletes nothing; get_traits returns the stored pointer unchanged
in both cases. -/
theorem traits_ownership_lifecycle (fresh p : Nat) :
    (mkDefault fresh).own_traits = true ∧
    destructorDeletes (mkDefault fresh) = some fresh ∧
    (mkWithTraits p).own_traits = false ∧
    destructorDeletes (mkWithTraits p) = none ∧
    get_traits (mkDefault fresh) = fresh ∧
    get_traits (mkWithTraits p) = p := by
  simp [mkDefault, mkWithTraits, destructorDeletes, get_traits]

theorem runCtors_owned_nodup_aux :
    ∀ (ops : List PublicCtor) (n : Nat),
      (((runCtors n ops).filter (fun a => a.own_traits)).map
          (fun a => a.traits)).Nodup ∧
      ∀ a ∈ runCtors n ops, a.own_traits = true → n ≤ a.traits := by
  intro ops
  induction ops with
  | nil => intro n; simp [runCtors]
  | cons op t ih =>
      intro n
      cases op with
      | mkDefault =>
          obtain ⟨ihn, ihb⟩ := ih (n + 1)
          constructor
          · simp only [runCtors, runCtor, mkDefault, List.filter_cons,
              List.map_cons, List.nodup_cons, if_true, eq_self_iff_true]
            refine ⟨?_, ihn⟩
            intro hmem
            rw [List.mem_map] at hmem
            obtain ⟨a, ha, hta⟩ := hmem
            rw [List.mem_filter] at ha
            have := ihb a ha.1 (by simpa using ha.2)
            omega
          · intro a ha hown
            simp only [runCtors, runCtor, List.mem_cons] at ha
            rcases ha with rfl | ha
            · simp [mkDefault]
            · have := ihb a ha hown
              omega
      | withTraits p =>
          obtain ⟨ihn, ihb⟩ := ih n
          constructor
          · simpa [runCtors, runCtor, mkWithTraits, List.filter_cons]
              using ihn
          · intro a ha hown
            simp only [runCtors, runCtor, List.mem_cons] at ha
            rcases ha with rfl | ha
            · simp [mkWithTraits] at hown
            · exact ihb a ha hown

theorem filterMap_destructorDeletes (l : List AlgState) :
    l.filterMap destructorDeletes =
      (l.filter (fun a => a.own_traits)).map (fun a => a.traits) := by
  induction l with
  | nil => rfl
  | cons a t ih =>
      by_cases h : a.own_traits = true
      · simp [List.filterMap_cons, List.filter_cons, destructorDeletes, h,
          ih]
      · simp only [Bool.not_eq_true] at h
        simp [List.filterMap_cons, List.filter_cons, destructorDeletes, h,
          ih]

/-- C9: instances arise only through the two public constructors (copying
and assignment are private and unimplemented), so along any sequence of
public constructions the traits pointers of the owning instances are
pairwise distinct — an owning instance never shares its pointer with
another owner — and running every destructor deletes each owned traits
object at most once. -/
theorem owned_traits_never_shared_deleted_once (n : Nat)
    (ops : List PublicCtor) :
    (((runCtors n ops).filter (fun a => a.own_traits)).map
        (fun a => a.traits)).Nodup ∧
    ((runCtors n ops).filterMap destructorDeletes).Nodup := by
  refine ⟨(runCtors_owned_nodup_aux ops n).1, ?_⟩
  rw [filterMap_destructorDeletes]
  exact (runCtors_owned_nodup_aux ops n).1

/-- C10: when no input curve is vertical, insert_x_monotone_curves never
invokes the vertical-segment merger — the result does not depend on it at
all — and the returned diagram is exactly the one produced by the
divide-and-conquer construction on the full input, unchanged. -/
theorem no_verticals_frame_construct_only (is_vertical : XCurve → Bool)
    (constructNV : Envelope_type → List XCurve → Diagram)
    (curves : List XCurve) (type : Envelope_type)
    (h : ∀ c ∈ curves, is_vertical c = false) :
    ∀ mergeVert : Envelope_type → List XCurve → Diagram → Diagram,
      insert_x_monotone_curves is_vertical constructNV mergeVert curves
          type = constructNV type curves := by
  intro mergeVert
  rw [insert_x_monotone_curves, partitionCurves_eq]
  have hvert : curves.filter is_vertical = [] := by
    rw [List.filter_eq_nil_iff]
    intro a ha
    simp [h a ha]
  have hreg : curves.filter (fun c => !(is_vertical c)) = curves := by
    rw [List.filter_eq_self]
    intro a ha
    simp [h a ha]
  simp [hvert, hreg]

theorem compare_vertices_same_x_iff (type : Envelope_type) (v1 v2 : Point) :
    (_compare_vertices type v1 v2).2 = true ↔ v1.x = v2.x := by
  unfold _compare_vertices
  cases type <;> split_ifs <;> simp_all <;> omega

theorem compare_vertices_not_same_x (type : Envelope_type) (v1 v2 : Point)
    (h : ¬ (_compare_vertices type v1 v2).2 = true) :
    ((_compare_vertices type v1 v2).1 = Comparison_result.SMALLER ↔
      v1.x < v2.x) ∧
    (¬ (_compare_vertices type v1 v2).1 = Comparison_result.SMALLER ↔
      v2.x < v1.x) := by
  unfold _compare_vertices at *
  cases type <;> split_ifs at * <;> simp_all <;> omega

theorem olt_trans {lo : Option Int} {a b : Int} (h1 : OLt lo a)
    (h2 : a < b) : OLt lo b := by
  cases lo with
  | none => exact trivial
  | some c =>
      simp only [OLt] at *
      omega

theorem sortedVX_nil : SortedVX [] := by
  simp [SortedVX, vxs]

theorem sortedVX_cons {s : CurveSet} {v : Point}
    {t : List (CurveSet × Point)} (h : SortedVX ((s, v) :: t)) :
    SortedVX t ∧ ∀ e ∈ t, v.x < e.2.x := by
  unfold SortedVX vxs at *
  rw [List.map_cons, List.pairwise_cons] at h
  refine ⟨h.2, ?_⟩
  intro e he
  exact h.1 e.2.x (List.mem_map.mpr ⟨e, he, rfl⟩)

theorem aboveLo_cons {lo : Option Int} {s : CurveSet} {v : Point}
    {t : List (CurveSet × Point)} (h : AboveLo lo ((s, v) :: t)) :
    OLt lo v.x ∧ AboveLo lo t := by
  refine ⟨h (s, v) (List.mem_cons_self _ _), ?_⟩
  intro e he
  exact h e (List.mem_cons_of_mem _ he)

theorem sortedVX_append_cons {C R : List (CurveSet × Point)}
    {S : CurveSet} {v : Point}
    (hC : SortedVX C) (hR : SortedVX R)
    (hCv : ∀ e ∈ C, e.2.x < v.x)
    (hvR : ∀ e ∈ R, v.x < e.2.x) :
    SortedVX (C ++ (S, v) :: R) := by
  unfold SortedVX vxs at *
  rw [List.map_append, List.map_cons, List.pairwise_append]
  refine ⟨hC, ?_, ?_⟩
  · rw [List.pairwise_cons]
    refine ⟨?_, hR⟩
    intro b hb
    rw [List.mem_map] at hb
    obtain ⟨e, he, rfl⟩ := hb
    exact hvR e he
  · intro a ha b hb
    rw [List.mem_map] at ha
    obtain ⟨e, he, rfl⟩ := ha
    rcases List.mem_cons.mp hb with rfl | hb
    · exact hCv e he
    · rw [List.mem_map] at hb
      obtain ⟨e2, he2, rfl⟩ := hb
      exact lt_trans (hCv e he) (hvR e2 he2)

theorem aboveLo_append_cons {lo : Option Int}
    {C R : List (CurveSet × Point)} {S : CurveSet} {v : Point}
    (hC : AboveLo lo C) (hv : OLt lo v.x)
    (hvR : ∀ e ∈ R, v.x < e.2.x) :
    AboveLo lo (C ++ (S, v) :: R) := by
  intro e he
  rcases List.mem_append.mp he with h | h
  · exact hC e h
  · rcases List.mem_cons.mp h with rfl | h
    · exact hv
    · exact olt_trans hv (hvR e h)

theorem sweep_sorted (O : MergeOracles) (type : Envelope_type)
    (last1 last2 : CurveSet) (hO : CrossWF O) :
    ∀ (l1 l2 : List (CurveSet × Point)) (lo : Option Int),
      SortedVX l1 → SortedVX l2 → AboveLo lo l1 → AboveLo lo l2 →
        SortedVX (sweep O type last1 last2 l1 l2 lo) ∧
          AboveLo lo (sweep O type last1 last2 l1 l2 lo) := by
  intro l1 l2 lo
  induction l1, l2, lo using sweep.induct O type last1 last2 with
  | case1 lo =>
      intro _ _ _ _
      rw [sweep]
      exact ⟨(hO last1 last2 lo none).1, (hO last1 last2 lo none).2.1⟩
  | case2 s2 v2 t2 lo ih =>
      intro hs1 hs2 ha1 ha2
      rw [sweep]
      obtain ⟨hs2t, hv2t⟩ := sortedVX_cons hs2
      obtain ⟨hv2lo, ha2t⟩ := aboveLo_cons ha2
      obtain ⟨hrS, hrA⟩ := ih sortedVX_nil hs2t (by intro e he; cases he)
        (fun e he => hv2t e he)
      obtain ⟨hcS, hcA, hcB⟩ := hO last1 s2 lo (some v2.x)
      refine ⟨sortedVX_append_cons hcS hrS
        (fun e he => hcB e he v2.x rfl) (fun e he => hrA e he),
        aboveLo_append_cons hcA hv2lo (fun e he => hrA e he)⟩
  | case3 s1 v1 t1 lo ih =>
      intro hs1 hs2 ha1 ha2
      rw [sweep]
      obtain ⟨hs1t, hv1t⟩ := sortedVX_cons hs1
      obtain ⟨hv1lo, ha1t⟩ := aboveLo_cons ha1
      obtain ⟨hrS, hrA⟩ := ih hs1t sortedVX_nil (fun e he => hv1t e he)
        (by intro e he; cases he)
      obtain ⟨hcS, hcA, hcB⟩ := hO s1 last2 lo (some v1.x)
      refine ⟨sortedVX_append_cons hcS hrS
        (fun e he => hcB e he v1.x rfl) (fun e he => hrA e he),
        aboveLo_append_cons hcA hv1lo (fun e he => hrA e he)⟩
  | case4 s1 v1 t1 s2 v2 t2 lo c hc ih =>
      intro hs1 hs2 ha1 ha2
      have hc2 : (_compare_vertices type v1 v2).2 = true := hc
      rw [sweep]
      simp only [hc2, if_true]
      have hx : v1.x = v2.x :=
        (compare_vertices_same_x_iff type v1 v2).mp hc2
      obtain ⟨hs1t, hv1t⟩ := sortedVX_cons hs1
      obtain ⟨hs2t, hv2t⟩ := sortedVX_cons hs2
      obtain ⟨hv1lo, ha1t⟩ := aboveLo_cons ha1
      obtain ⟨hrS, hrA⟩ := ih hs1t hs2t (fun e he => hv1t e he)
        (by
          intro e he
          have := hv2t e he
          simp only [OLt]
          omega)
      obtain ⟨hcS, hcA, hcB⟩ := hO s1 s2 lo (some v1.x)
      have hwx : (if (_compare_vertices type v1 v2).1 =
          Comparison_result.LARGER then v2 else v1).x = v1.x := by
        split
        · omega
        · rfl
      constructor
      · refine sortedVX_append_cons hcS hrS ?_ ?_
        · intro e he
          rw [hwx]
          exact hcB e he v1.x rfl
        · intro e he
          rw [hwx]
          exact hrA e he
      · refine aboveLo_append_cons hcA ?_ ?_
        · rw [hwx]
          exact hv1lo
        · intro e he
          rw [hwx]
          exact hrA e he
  | case5 s1 v1 t1 s2 v2 t2 lo c hc hsm ih =>
      intro hs1 hs2 ha1 ha2
      have hc2 : ¬ (_compare_vertices type v1 v2).2 = true := hc
      have hsm2 : (_compare_vertices type v1 v2).1 =
        Comparison_result.SMALLER := hsm
      rw [sweep]
      simp only [hc2, hsm2, if_true, if_false, Bool.false_eq_true,
        eq_self_iff_true]
      have hx : v1.x < v2.x :=
        ((compare_vertices_not_same_x type v1 v2 hc2).1).mp hsm2
      obtain ⟨hs1t, hv1t⟩ := sortedVX_cons hs1
      obtain ⟨hs2t, hv2t⟩ := sortedVX_cons hs2
      obtain ⟨hv1lo, ha1t⟩ := aboveLo_cons ha1
      obtain ⟨hrS, hrA⟩ := ih hs1t hs2
        (fun e he => hv1t e he)
        (by
          intro e he
          rcases List.mem_cons.mp he with rfl | he
          · simp only [OLt]
            omega
          · have := hv2t e he
            simp only [OLt]
            omega)
      obtain ⟨hcS, hcA, hcB⟩ := hO s1 s2 lo (some v1.x)
      refine ⟨sortedVX_append_cons hcS hrS
        (fun e he => hcB e he v1.x rfl) (fun e he => hrA e he),
        aboveLo_append_cons hcA hv1lo (fun e he => hrA e he)⟩
  | case6 s1 v1 t1 s2 v2 t2 lo c hc hsm ih =>
      intro hs1 hs2 ha1 ha2
      have hc2 : ¬ (_compare_vertices type v1 v2).2 = true := hc
      have hsm2 : ¬ (_compare_vertices type v1 v2).1 =
        Comparison_result.SMALLER := hsm
      rw [sweep]
      simp only [hc2, hsm2, if_true, if_false, Bool.false_eq_true,
        eq_self_iff_true]
      have hx : v2.x < v1.x :=
        ((compare_vertices_not_same_x type v1 v2 hc2).2).mp hsm2
      obtain ⟨hs1t, hv1t⟩ := sortedVX_cons hs1
      obtain ⟨hs2t, hv2t⟩ := sortedVX_cons hs2
      obtain ⟨hv2lo, ha2t⟩ := aboveLo_cons ha2
      obtain ⟨hrS, hrA⟩ := ih hs1 hs2t
        (by
          intro e he
          rcases List.mem_cons.mp he with rfl | he
          · simp only [OLt]
            omega
          · have := hv1t e he
            simp only [OLt]
            omega)
        (fun e he => hv2t e he)
      obtain ⟨hcS, hcA, hcB⟩ := hO s1 s2 lo (some v2.x)
      refine ⟨sortedVX_append_cons hcS hrS
        (fun e he => hcB e he v2.x rfl) (fun e he => hrA e he),
        aboveLo_append_cons hcA hv2lo (fun e he => hrA e he)⟩

theorem merge_envelopes_sorted (O : MergeOracles) (type : Envelope_type)
    (d1 d2 : Diagram) (hO : CrossWF O)
    (h1 : SortedVX d1.pre) (h2 : SortedVX d2.pre) :
    SortedVX (_merge_envelopes O type d1 d2).pre :=
  (sweep_sorted O type d1.last d2.last hO d1.pre d2.pre none h1 h2
    (fun _ _ => trivial) (fun _ _ => trivial)).1

theorem constructNV_sorted (O : MergeOracles) (type : Envelope_type)
    (hO : CrossWF O) :
    ∀ l : List XCurve, (∀ c ∈ l, c.lx < c.rx) →
      SortedVX (_construct_envelope_non_vertical O type l).pre := by
  intro l
  induction l using _construct_envelope_non_vertical.induct O type with
  | case1 =>
      intro _
      rw [_construct_envelope_non_vertical]
      exact sortedVX_nil
  | case2 c =>
      intro h
      rw [_construct_envelope_non_vertical]
      have hlt := h c (by simp)
      simp [_construct_singleton_diagram, SortedVX, vxs]
      exact hlt
  | case3 a b t ih1 ih2 =>
      intro h
      rw [_construct_envelope_non_vertical]
      exact merge_envelopes_sorted O type _ _ hO
        (ih1 (fun c hc => h c (List.take_subset _ _ hc)))
        (ih2 (fun c hc => h c (List.drop_subset _ _ hc)))

theorem sortedVX_cons_intro {s : CurveSet} {v : Point}
    {t : List (CurveSet × Point)} (ht : SortedVX t)
    (hv : ∀ e ∈ t, v.x < e.2.x) : SortedVX ((s, v) :: t) := by
  unfold SortedVX vxs at *
  rw [List.map_cons, List.pairwise_cons]
  refine ⟨?_, ht⟩
  intro b hb
  rw [List.mem_map] at hb
  obtain ⟨e, he, rfl⟩ := hb
  exact hv e he

theorem insertVertexAt_mem (p : Point) (ls : CurveSet) :
    ∀ (l : List (CurveSet × Point)) (e : CurveSet × Point),
      e ∈ insertVertexAt p ls l → e.2.x = p.x ∨ e.2.x ∈ vxs l := by
  intro l
  induction l with
  | nil =>
      intro e he
      rw [insertVertexAt] at he
      rcases List.mem_cons.mp he with rfl | h
      · exact Or.inl rfl
      · cases h
  | cons sv t ih =>
      obtain ⟨s, v⟩ := sv
      intro e he
      rw [insertVertexAt] at he
      split_ifs at he with h1 h2
      · rcases List.mem_cons.mp he with rfl | he2
        · exact Or.inl rfl
        · exact Or.inr (List.mem_map.mpr ⟨e, he2, rfl⟩)
      · exact Or.inr (List.mem_map.mpr ⟨e, he, rfl⟩)
      · rcases List.mem_cons.mp he with rfl | he2
        · exact Or.inr (by simp [vxs])
        · rcases ih e he2 with h | h
          · exact Or.inl h
          · refine Or.inr ?_
            simp only [vxs, List.map_cons, List.mem_cons]
            exact Or.inr (by simpa [vxs] using h)

theorem insertVertexAt_sorted (p : Point) (ls : CurveSet) :
    ∀ l : List (CurveSet × Point), SortedVX l →
      SortedVX (insertVertexAt p ls l) := by
  intro l
  induction l with
  | nil =>
      intro _
      rw [insertVertexAt]
      simp [SortedVX, vxs]
  | cons sv t ih =>
      obtain ⟨s, v⟩ := sv
      intro hs
      obtain ⟨hst, hvt⟩ := sortedVX_cons hs
      rw [insertVertexAt]
      split_ifs with h1 h2
      · refine sortedVX_cons_intro hs ?_
        intro e he
        rcases List.mem_cons.mp he with rfl | he2
        · exact h1
        · exact lt_trans h1 (hvt e he2)
      · exact hs
      · refine sortedVX_cons_intro (ih hst) ?_
        intro e he
        rcases insertVertexAt_mem p ls t e he with h | h
        · omega
        · rw [vxs, List.mem_map] at h
          obtain ⟨e2, he2, hx2⟩ := h
          rw [← hx2]
          exact hvt e2 he2

theorem merge_vertical_segments_sorted (O : MergeOracles)
    (type : Envelope_type) (vs : List XCurve) (d : Diagram)
    (hd : SortedVX d.pre) :
    SortedVX (_merge_vertical_segments O type vs d).pre := by
  unfold _merge_vertical_segments
  generalize sortByX vs = l
  induction l generalizing d with
  | nil => exact hd
  | cons c t ih =>
      rw [List.foldl_cons]
      apply ih
      split_ifs with h
      · exact insertVertexAt_sorted _ _ _ hd
      · exact hd

theorem verts_map_x (d : Diagram) : d.verts.map Point.x = vxs d.pre := by
  simp [Diagram.verts, vxs, List.map_map, Function.comp]

/-- C3: for every curve set and both envelope types, the diagram produced by
the insert_curves pipeline has strictly increasing vertex x-coordinates (no
two vertices share an x and the sequence order agrees with the x order),
assuming x-monotone input curves and a well-formed crossing oracle. -/
theorem insert_curves_vertices_strictly_increasing (O : MergeOracles)
    (make_x_monotone : Curve → List TraitsObject) (curves : List Curve)
    (type : Envelope_type) (hO : CrossWF O)
    (hmono : ∀ c ∈ curves,
      ∀ xc ∈ (make_x_monotone c).filterMap assignXCurve, xc.lx ≤ xc.rx) :
    ((insert_curves_full O make_x_monotone curves type).verts.map
      Point.x).Pairwise (fun a b => a < b) := by
  unfold insert_curves_full insert_curves
  rw [collect_outer_foldl, List.nil_append]
  simp only [insert_x_monotone_curves, partitionCurves_eq]
  have hreg : ∀ c ∈ (curves.flatMap
      (fun c => (make_x_monotone c).filterMap assignXCurve)).filter
        (fun c => !(is_vertical_model c)), c.lx < c.rx := by
    intro c hc
    rw [List.mem_filter] at hc
    obtain ⟨hmem, hnv⟩ := hc
    rw [List.mem_flatMap] at hmem
    obtain ⟨cur, hcur, hcmem⟩ := hmem
    have hle := hmono cur hcur c hcmem
    have hne : ¬ (c.lx == c.rx) = true := by
      simpa [is_vertical_model] using hnv
    simp only [beq_iff_eq] at hne
    omega
  have hds := constructNV_sorted O type hO _ hreg
  rw [verts_map_x]
  split_ifs with h
  · exact merge_vertical_segments_sorted O type _ _ hds
  · exact hds

/-- Witness for C3 at a concrete input: the trivial well-formed oracles, one
input curve split into the single x-monotone curve xc05, lower envelope. -/
theorem insert_curves_vertices_strictly_increasing_witness :
    CrossWF trivOracles ∧
    (∀ c ∈ [(0 : Curve)],
      ∀ xc ∈ (mkTriv c).filterMap assignXCurve, xc.lx ≤ xc.rx) ∧
    ((insert_curves_full trivOracles mkTriv [0]
      Envelope_type.LOWER).verts.map Point.x).Pairwise
        (fun a b => a < b) := by
  have hO : CrossWF trivOracles := by
    intro s1 s2 lo hi
    refine ⟨sortedVX_nil, ?_, ?_⟩ <;> intro e he <;> cases he
  have hm : ∀ c ∈ [(0 : Curve)],
      ∀ xc ∈ (mkTriv c).filterMap assignXCurve, xc.lx ≤ xc.rx := by
    decide
  exact ⟨hO, hm, insert_curves_vertices_strictly_increasing trivOracles
    mkTriv [0] Envelope_type.LOWER hO hm⟩

/-- C7: an empty input range makes both insert_curves and
insert_x_monotone_curves produce the empty diagram — a single unbounded
edge with an empty curve set and no vertices — without any fault. -/
theorem empty_input_yields_empty_diagram (O : MergeOracles)
    (make_x_monotone : Curve → List TraitsObject) (type : Envelope_type) :
    insert_curves_full O make_x_monotone [] type = emptyDiagram ∧
    insert_x_monotone_curves_full O [] type = emptyDiagram ∧
    emptyDiagram.verts = [] ∧ emptyDiagram.pre = [] ∧
    emptyDiagram.last = ∅ := by
  have h2 : insert_x_monotone_curves_full O [] type = emptyDiagram := by
    unfold insert_x_monotone_curves_full insert_x_monotone_curves
    simp only [partitionCurves_eq, List.filter_nil]
    rw [_construct_envelope_non_vertical]
    simp
  refine ⟨?_, h2, rfl, rfl, rfl⟩
  exact h2

/-- Witness for C10 at a concrete input: the single non-vertical curve xc05
with the modelled is-vertical predicate and the modelled construction. -/
theorem no_verticals_frame_construct_only_witness :
    (∀ c ∈ [xc05], is_vertical_model c = false) ∧
    insert_x_monotone_curves is_vertical_model
        (_construct_envelope_non_vertical trivOracles)
        (_merge_vertical_segments trivOracles) [xc05]
        Envelope_type.LOWER =
      _construct_envelope_non_vertical trivOracles Envelope_type.LOWER
        [xc05] :=
  ⟨by decide,
   no_verticals_frame_construct_only is_vertical_model
     (_construct_envelope_non_vertical trivOracles) [xc05]
     Envelope_type.LOWER (by decide)
     (_merge_vertical_segments trivOracles)⟩

end CGAL
